import Mathlib

/-!
# duitfiles: the column browser of the file picker

A shallow embedding of `columns.go`, `column.go` and the parts of `files.go`
that the column browser uses (`error`, `clearError`, `listDir`, the initial
state built by `Select`, the click handler of the select button).

* Go strings are byte sequences (`GoString`); `strings.HasPrefix`,
  `strings.HasSuffix` and `strings.Contains` are modelled on bytes.
* The widget tree is flattened to the data the handlers read and write:
  `columnsUI.Kids` is the list of columns, each column carries its `name`,
  its `names`, the text of its field and the values of its list.
* Go panics (index or slice bound out of range) are the result `none`.
  A slice expression `Kids[:n]` is modelled as failing when `n` exceeds the
  length of `Kids` (Go accepts `n` up to the capacity of the slice); all
  statements below keep column indices inside the chain, where both agree.
* `ioutil.ReadDir` and `favoritesUI.findFavorite` are not part of the embedded
  sources; they are the two fields of `Env`.
* `dui.MarkLayout` only schedules a redraw and is left out; `dui.Focus` is
  recorded in the field `focus`.
-/

namespace duitfiles

/-! ## Strings -/

/-- Go `string`: an immutable sequence of bytes. -/
abbrev GoString := List UInt8

/-- ASCII string literal as its bytes, to write Go literals such as `"/"` and `"readdir"`. -/
def lit (s : String) : GoString := s.toList.map (fun c => UInt8.ofNat c.toNat)

/-- Go `strings.HasPrefix`: `len(s) >= len(prefix) && s[:len(prefix)] == prefix`. -/
def HasPrefix (s pfx : GoString) : Bool :=
  decide (s.length ≥ pfx.length) && s.take pfx.length == pfx

/-- Go `strings.HasSuffix`: `len(s) >= len(suffix) && s[len(s)-len(suffix):] == suffix`. -/
def HasSuffix (s suffix : GoString) : Bool :=
  decide (s.length ≥ suffix.length) && s.drop (s.length - suffix.length) == suffix

/-- Go `strings.Contains`: `substr` occurs in `s` at some byte offset. -/
def Contains (s substr : GoString) : Bool :=
  (List.range (s.length + 1)).any (fun i => HasPrefix (s.drop i) substr)

/-! ## Widgets and state -/

/-- The fields of `duit.ListValue` that the picker uses. -/
structure ListValue where
  Text : GoString
  Value : GoString
  Selected : Bool
deriving DecidableEq, Repr

/-- The field `Values` of `duit.List`. -/
structure DuitList where
  Values : List ListValue
deriving DecidableEq, Repr

/-- The fields `Text` and `Cursor1` of `duit.Field`. -/
structure Field where
  Text : GoString
  Cursor1 : Nat
deriving DecidableEq, Repr

/-- Loop of `duit.List.Selected`, from index `i` on. -/
def selectedFrom : Nat → List ListValue → List Nat
  | _, [] => []
  | i, lv :: rest =>
    if lv.Selected then i :: selectedFrom (i + 1) rest else selectedFrom (i + 1) rest

/-- Method `Selected` of `duit.List`: the indices of the selected values. -/
def DuitList.Selected (l : DuitList) : List Nat := selectedFrom 0 l.Values

/-- Type `columnUI` of `column.go`. -/
structure columnUI where
  name : GoString
  names : List GoString
  field : Field
  list : DuitList
deriving DecidableEq, Repr

/-- Type `columnsUI` of `columns.go`: the kids of the split are the columns. -/
structure columnsUI where
  Kids : List columnUI
deriving DecidableEq, Repr

/-- What `files` reads and writes of `favoritesUI`: the path of the active
favourite, the text of the toggle button and the paths in the favourites list. -/
structure favoritesUI where
  active : GoString
  toggle : GoString
  list : List GoString
deriving DecidableEq, Repr

/-- The widget that `dui.Focus` was last called with. -/
inductive Focus where
  | unset
  | errorClear
  | field (col : Nat)
  | list (col : Nat)
deriving DecidableEq, Repr

/-- Type `files` of `files.go`. -/
structure files where
  colsUI : columnsUI
  errorLabel : GoString
  pathLabel : GoString
  favUI : favoritesUI
  focus : Focus
deriving DecidableEq, Repr

/-- An `os.FileInfo` as far as `listDir` looks at it. -/
structure FileInfo where
  Name : GoString
  IsDir : Bool
deriving DecidableEq, Repr

/-- The two collaborators outside the embedded sources: `ioutil.ReadDir` (an
error is given by its message) and `favoritesUI.findFavorite` (`true` when a
favourite with that path is found). -/
structure Env where
  ReadDir : GoString → Except GoString (List FileInfo)
  findFavorite : GoString → Bool

/-! ## files.go -/

/-- Method `files.error`: `err` is `none` for Go's `nil`. -/
def files.error (f : files) (err : Option GoString) (msg : GoString) : files × Bool :=
  match err with
  | none => (f, false)
  | some e => ({ f with errorLabel := msg ++ lit ": " ++ e, focus := Focus.errorClear }, true)

/-- Method `files.clearError`. -/
def files.clearError (f : files) : files :=
  if f.errorLabel == [] then f else { f with errorLabel := [] }

/-- Method `files.listDir`. -/
def files.listDir (env : Env) (f : files) (path : GoString) : files × List GoString :=
  let (l, err) : List FileInfo × Option GoString :=
    match env.ReadDir path with
    | Except.ok l => (l, none)
    | Except.error e => ([], some e)
  let (f, failed) := f.error err (lit "readdir")
  if failed then (f, [])
  else (f, l.map (fun fi => if fi.IsDir then fi.Name ++ lit "/" else fi.Name))

/-! ## column.go, columns.go -/

/-- The data part of `newColumnUI`: the list shows every name, nothing selected, empty field. -/
def newColumnUI (name : GoString) (names : List GoString) : columnUI :=
  { name := name
    names := names
    field := { Text := [], Cursor1 := 0 }
    list := { Values := names.map (fun name => { Text := name, Value := name, Selected := false }) } }

/-- Method `columnsUI.composePath`. -/
def composePath (f : files) (col : Nat) (name : GoString) : Option GoString :=
  if col ≤ f.colsUI.Kids.length then
    let path := (f.colsUI.Kids.take col).foldl (fun path colK => path ++ colK.name) f.favUI.active
    some (path ++ name)
  else none

/-- Method `columnsUI.selectName`. -/
def selectName (env : Env) (f : files) (col : Nat) (name : GoString) : Option files :=
  if col + 1 ≤ f.colsUI.Kids.length then
    let Kids := f.colsUI.Kids.take (col + 1)
    match Kids[col]? with
    | none => none
    | some colUI =>
      let colUI := { colUI with
        name := name
        list := { Values := colUI.list.Values.map (fun lv => { lv with Selected := lv.Text == name }) } }
      let f := { f with colsUI := { Kids := Kids.set col colUI } }
      match composePath f col name with
      | none => none
      | some path =>
        let f := { f with pathLabel := path }
        let f := { f with favUI := { f.favUI with
          toggle := if env.findFavorite path then lit "-" else lit "+" } }
        if !HasSuffix path (lit "/") || name == [] then some f
        else
          let colIndex := f.colsUI.Kids.length
          let (f, names) := f.listDir env path
          let newColUI := newColumnUI name names
          some { f with colsUI := { Kids := f.colsUI.Kids ++ [newColUI] }, focus := Focus.field colIndex }
  else none

/-- The keys the handlers of a column distinguish: `'\n'`, `draw.KeyLeft`,
`draw.KeyRight`, `'f' & 0x1f` (ctrl-f), and any other key. -/
inductive Key where
  | newline
  | KeyLeft
  | KeyRight
  | ctrlF
  | other
deriving DecidableEq, Repr

/-- Handler `list.Changed` of the column `colIndex` (a click on the value `index`). -/
def listChanged (env : Env) (f : files) (colIndex index : Nat) : Option files :=
  let f := f.clearError
  match f.colsUI.Kids[colIndex]? with
  | none => none
  | some ui =>
    match ui.list.Values[index]? with
    | none => none
    | some lv =>
      if lv.Selected then selectName env f colIndex lv.Value
      else selectName env f colIndex []

/-- Handler `list.Keys` of the column `colIndex`. The result holds the new state and
the path sent on the channel `selected`, if one is sent. -/
def listKeys (env : Env) (f : files) (colIndex : Nat) (k : Key) : Option (files × Option GoString) :=
  let f := f.clearError
  match f.colsUI.Kids[colIndex]? with
  | none => none
  | some ui =>
    match k with
    | Key.newline =>
      match ui.list.Selected with
      | [index] =>
        match ui.list.Values[index]? with
        | none => none
        | some lv =>
          match composePath f colIndex lv.Value with
          | none => none
          | some path => some (f, some path)
      | _ => some (f, none)
    | Key.KeyLeft =>
      let r := if colIndex > 0 then selectName env f (colIndex - 1) [] else selectName env f colIndex []
      match r with
      | none => none
      | some f => some (f, none)
    | Key.KeyRight =>
      match ui.list.Selected with
      | [index] =>
        match ui.list.Values[index]? with
        | none => none
        | some lv =>
          let elem := lv.Value
          if HasSuffix elem (lit "/") then
            match selectName env f colIndex elem with
            | none => none
            | some f =>
              match f.colsUI.Kids[colIndex + 1]? with
              | none => none
              | some newCol =>
                let colNames := newCol.names
                let r :=
                  if colNames.length > 0 then
                    match colNames[0]? with
                    | none => none
                    | some first => selectName env f (colIndex + 1) first
                  else some f
                match r with
                | none => none
                | some f =>
                  if f.colsUI.Kids.length ≥ 1 then
                    some ({ f with focus := Focus.list (f.colsUI.Kids.length - 1) }, none)
                  else none
          else some (f, none)
      | _ => some (f, none)
    | _ => some (f, none)

/-- Inner loop of the completion: `for i, c := range []byte(lv.Text)`, from index `i` on,
cutting `s` at the first index where it ends or differs. -/
def cutAtMismatch (s : GoString) : Nat → GoString → GoString
  | _, [] => s
  | i, c :: rest =>
    if decide (i ≥ s.length) || s[i]? != some c then s.take i
    else cutAtMismatch s (i + 1) rest

/-- Body of the outer loop of the completion, for one list value. -/
def completionStep (fieldText : GoString) (s : GoString) (lv : ListValue) : GoString :=
  if !HasPrefix lv.Text fieldText then s
  else if s == [] then lv.Text
  else cutAtMismatch s 0 lv.Text

/-- The text `s` that the ctrl-f handler computes from the shown list values and the
text of the field. -/
def completion (Values : List ListValue) (fieldText : GoString) : GoString :=
  match Values with
  | [lv] => lv.Text
  | _ => Values.foldl (completionStep fieldText) []

/-- Loop of `field.Changed` over the names of the column: the new list values and `exactMatch`. -/
def changedLoop (names : List GoString) (newValue : GoString) : List ListValue × Bool :=
  names.foldl
    (fun (acc : List ListValue × Bool) name =>
      let exactMatch := acc.2 || name == newValue
      if Contains name newValue then
        (acc.1 ++ [{ Text := name, Value := name, Selected := false }], exactMatch)
      else (acc.1, exactMatch))
    ([], false)

/-- Assignment to the column `colIndex` of the chain (the column the handler belongs to). -/
def setColumn (f : files) (colIndex : Nat) (ui : columnUI) : files :=
  { f with colsUI := { Kids := f.colsUI.Kids.set colIndex ui } }

/-- The call `dui.Focus(colsUI.Kids[len(colsUI.Kids)-1].UI.(*columnUI).field)`. -/
def focusLastField (f : files) : Option files :=
  if f.colsUI.Kids.length ≥ 1 then some { f with focus := Focus.field (f.colsUI.Kids.length - 1) }
  else none

/-- Handler `field.Changed` of the column `colIndex`. -/
def fieldChanged (env : Env) (f : files) (colIndex : Nat) (newValue : GoString) : Option files :=
  let f := f.clearError
  match f.colsUI.Kids[colIndex]? with
  | none => none
  | some ui =>
    let (nl, exactMatch) := changedLoop ui.names newValue
    let f := setColumn f colIndex { ui with list := { Values := nl } }
    if exactMatch then
      match selectName env f colIndex newValue with
      | none => none
      | some f => focusLastField f
    else some f

/-- Handler `field.Keys` of the column `colIndex`. -/
def fieldKeys (env : Env) (f : files) (colIndex : Nat) (k : Key) : Option files :=
  let f := f.clearError
  match f.colsUI.Kids[colIndex]? with
  | none => none
  | some ui =>
    match k with
    | Key.ctrlF =>
      let s := completion ui.list.Values ui.field.Text
      let ui := { ui with field := { Text := s, Cursor1 := 0 } }
      fieldChanged env (setColumn f colIndex ui) colIndex ui.field.Text
    | _ => some f

/-- The state that `Select` builds before its event loop: the path label shows the
first favourite and the only column lists that directory. -/
def Select (env : Env) (favUI : favoritesUI) : Option files :=
  match favUI.list[0]? with
  | none => none
  | some root =>
    let f : files :=
      { colsUI := { Kids := [] }, errorLabel := [], pathLabel := root, favUI := favUI,
        focus := Focus.unset }
    let (f, names) := f.listDir env f.pathLabel
    some { f with colsUI := { Kids := [newColumnUI [] names] }, focus := Focus.field 0 }

/-- Handler `selectButton.Click`: the path sent on the channel `selected`. -/
def selectButtonClick (f : files) : GoString := f.pathLabel

/-! ## Reachable states and committed paths -/

/-- Modelled from the spec: `newFavoritesUI` is not part of the embedded sources. The
spec has column 0 list "the active favorite root", and `Select` lists the directory of
the first favourite of the list, so a session starts with the first favourite as the
active one. -/
def startsOnActive (favUI : favoritesUI) : Prop :=
  favUI.list[0]? = some favUI.active

/-- The states that `selectName` calls reach from the state `Select` starts with. -/
inductive Reachable (env : Env) (favUI : favoritesUI) : files → Prop
  | init (f : files) :
      startsOnActive favUI → Select env favUI = some f → Reachable env favUI f
  | step (f f' : files) (col : Nat) (name : GoString) :
      Reachable env favUI f → selectName env f col name = some f' → Reachable env favUI f'

/-- The path `p` is sent on the channel `selected` in the state `f`: by a click on the
select button, or by the return key in the list of some column. -/
def Delivers (env : Env) (f : files) (p : GoString) : Prop :=
  p = selectButtonClick f ∨
    ∃ colIndex f', listKeys env f colIndex Key.newline = some (f', some p)

/-! ## The completion as the documentation states it -/

/-- The string `p` is the longest common prefix of the strings `l`: a prefix of each,
and every common prefix is a prefix of it. -/
def IsLongestCommonPrefix (p : GoString) (l : List GoString) : Prop :=
  (∀ x ∈ l, p <+: x) ∧ ∀ q : GoString, (∀ x ∈ l, q <+: x) → q <+: p

/-- Longest common prefix of two strings. -/
def commonPrefix : GoString → GoString → GoString
  | a :: s, b :: t => if a = b then a :: commonPrefix s t else []
  | _, _ => []

/-- Longest common prefix of the strings of a list (of a non-empty list). -/
def longestCommonPrefix : List GoString → GoString
  | [] => []
  | x :: xs => xs.foldl commonPrefix x

/-- A column in the state it has after the user typed `text` in its field: the toolkit
stored the text in the field and `field.Changed` replaced the list values. -/
def typedColumn (names : List GoString) (text : GoString) : columnUI :=
  { name := []
    names := names
    field := { Text := text, Cursor1 := text.length }
    list := { Values := (changedLoop names text).1 } }

/-! ## Example inputs -/

/-- A file system: `/` holds the directories `docs` and `secret` and two files,
`/docs/` holds a directory and a file, every other directory cannot be read. -/
def exampleEnv : Env :=
  { ReadDir := fun path =>
      if path = lit "/" then
        Except.ok [⟨lit "docs", true⟩, ⟨lit "notes.txt", false⟩, ⟨lit "photo.png", false⟩,
          ⟨lit "secret", true⟩]
      else if path = lit "/docs/" then
        Except.ok [⟨lit "a", true⟩, ⟨lit "b.txt", false⟩]
      else Except.error (lit "open " ++ path ++ lit ": permission denied")
    findFavorite := fun path => decide (path = lit "/") }

/-- Favourites with the file system root as the only and active favourite. -/
def exampleFav : favoritesUI :=
  { active := lit "/", toggle := lit "-", list := [lit "/"] }

/-- The state `Select exampleEnv exampleFav` starts with. -/
def exampleStart : files :=
  { colsUI := { Kids := [newColumnUI []
      [lit "docs/", lit "notes.txt", lit "photo.png", lit "secret/"]] }
    errorLabel := []
    pathLabel := lit "/"
    favUI := exampleFav
    focus := Focus.field 0 }

/-- Column 0 of `exampleStart` after the directory `docs/` was selected in it. -/
def exampleDocsColumn : columnUI :=
  { name := lit "docs/"
    names := [lit "docs/", lit "notes.txt", lit "photo.png", lit "secret/"]
    field := { Text := [], Cursor1 := 0 }
    list := { Values := [⟨lit "docs/", lit "docs/", true⟩,
      ⟨lit "notes.txt", lit "notes.txt", false⟩, ⟨lit "photo.png", lit "photo.png", false⟩,
      ⟨lit "secret/", lit "secret/", false⟩] } }

/-- The state after the directory `docs/` was selected in column 0 of `exampleStart`. -/
def exampleDocs : files :=
  { colsUI := { Kids := [exampleDocsColumn, newColumnUI (lit "docs/") [lit "a/", lit "b.txt"]] }
    errorLabel := []
    pathLabel := lit "/docs/"
    favUI := { active := lit "/", toggle := lit "+", list := [lit "/"] }
    focus := Focus.field 1 }

/-- The entries of a directory with the directory `docs` and two files. -/
def exampleNames : List GoString := [lit "docs/", lit "notes.txt", lit "photo.png"]

/-- The entries of a directory with the three files `a`, `b` and `c`. -/
def exampleABC : List GoString := [lit "a", lit "b", lit "c"]

/-- A file system whose root directory `/` holds `entries` and nothing else can be read. -/
def exampleListing (entries : List FileInfo) : Env :=
  { ReadDir := fun path =>
      if path = lit "/" then Except.ok entries
      else Except.error (lit "open " ++ path ++ lit ": no such file or directory")
    findFavorite := fun path => decide (path = lit "/") }

/-- The root directory holds the directory `docs` and the files `notes.txt`, `photo.png`. -/
def exampleEnvNames : Env :=
  exampleListing [⟨lit "docs", true⟩, ⟨lit "notes.txt", false⟩, ⟨lit "photo.png", false⟩]

/-- The root directory holds the files `a`, `b` and `c`. -/
def exampleEnvABC : Env :=
  exampleListing [⟨lit "a", false⟩, ⟨lit "b", false⟩, ⟨lit "c", false⟩]

/-- A state with one column for a directory with the entries `names`, after the user
typed `text` in the field of the column. -/
def exampleTyped (names : List GoString) (text : GoString) : files :=
  { colsUI := { Kids := [typedColumn names text] }
    errorLabel := []
    pathLabel := lit "/"
    favUI := exampleFav
    focus := Focus.field 0 }

/-- The text of the field of column `colIndex` after ctrl-f was pressed in it. -/
def textAfterCtrlF (env : Env) (f : files) (colIndex : Nat) : Option GoString :=
  match fieldKeys env f colIndex Key.ctrlF with
  | none => none
  | some f' =>
    match f'.colsUI.Kids[colIndex]? with
    | none => none
    | some ui => some ui.field.Text

/-! ## Facts about the string functions -/

theorem HasPrefix_iff (s pfx : GoString) : HasPrefix s pfx = true ↔ pfx <+: s := by
  unfold HasPrefix
  rw [List.prefix_iff_eq_take]
  constructor
  · intro h
    simp only [Bool.and_eq_true, decide_eq_true_eq, beq_iff_eq] at h
    exact h.2.symm
  · intro h
    have hl : pfx.length ≤ s.length := by
      have := congrArg List.length h
      simp only [List.length_take] at this
      omega
    simp only [Bool.and_eq_true, decide_eq_true_eq, beq_iff_eq]
    exact ⟨hl, h.symm⟩

theorem HasSuffix_iff (s suffix : GoString) : HasSuffix s suffix = true ↔ suffix <:+ s := by
  unfold HasSuffix
  rw [List.suffix_iff_eq_drop]
  constructor
  · intro h
    simp only [Bool.and_eq_true, decide_eq_true_eq, beq_iff_eq] at h
    exact h.2.symm
  · intro h
    have hl : suffix.length ≤ s.length := by
      have := congrArg List.length h
      simp only [List.length_drop] at this
      omega
    simp only [Bool.and_eq_true, decide_eq_true_eq, beq_iff_eq]
    exact ⟨hl, h.symm⟩

theorem Contains_iff (s substr : GoString) : Contains s substr = true ↔ substr <:+: s := by
  unfold Contains
  rw [List.any_eq_true]
  constructor
  · rintro ⟨i, _, hi⟩
    rw [HasPrefix_iff] at hi
    exact List.IsInfix.trans hi.isInfix (List.drop_suffix i s).isInfix
  · rintro ⟨a, b, h⟩
    refine ⟨a.length, ?_, ?_⟩
    · rw [List.mem_range, ← h]
      simp only [List.length_append]
      omega
    · rw [HasPrefix_iff, ← h, List.append_assoc, List.drop_left]
      exact List.prefix_append _ _


theorem singleton_suffix_iff (c : UInt8) (l : GoString) : [c] <:+ l ↔ l.getLast? = some c := by
  rcases List.eq_nil_or_concat l with rfl | ⟨L, b, rfl⟩
  · simp
  · rw [List.concat_eq_append, List.getLast?_append]
    have ho : (some b).or L.getLast? = some b := rfl
    rw [List.getLast?_singleton, ho, Option.some.injEq]
    constructor
    · rintro ⟨t, ht⟩
      have := List.append_inj_right' ht rfl
      simpa using this.symm
    · rintro rfl
      exact List.suffix_append _ _

theorem HasSuffix_append (a name : GoString) (h : name ≠ []) :
    HasSuffix (a ++ name) (lit "/") = HasSuffix name (lit "/") := by
  rw [Bool.eq_iff_iff, HasSuffix_iff, HasSuffix_iff]
  have hl : lit "/" = [47] := by decide
  rw [hl, singleton_suffix_iff, singleton_suffix_iff, List.getLast?_append]
  rcases List.eq_nil_or_concat name with rfl | ⟨L, b, rfl⟩
  · exact absurd rfl h
  · simp [List.concat_eq_append, List.getLast?_append]

theorem HasSuffix_ne_nil (name : GoString) (h : HasSuffix name (lit "/") = true) : name ≠ [] := by
  rintro rfl
  revert h
  decide

theorem set_take_succ (Kids : List columnUI) (col : Nat) (c : columnUI) (h : col < Kids.length) :
    (Kids.take (col + 1)).set col c = Kids.take col ++ [c] := by
  rw [List.set_eq_take_append_cons_drop]
  have h1 : col < (List.take (col + 1) Kids).length := by
    rw [List.length_take]; omega
  rw [if_pos h1, List.take_take, List.drop_take]
  simp


theorem listDir_ok (env : Env) (f : files) (path : GoString) (l : List FileInfo)
    (h : env.ReadDir path = Except.ok l) :
    f.listDir env path = (f, l.map (fun fi => if fi.IsDir then fi.Name ++ lit "/" else fi.Name)) := by
  simp [files.listDir, h, files.error]

theorem listDir_error (env : Env) (f : files) (path e : GoString)
    (h : env.ReadDir path = Except.error e) :
    f.listDir env path =
      ({ f with errorLabel := lit "readdir" ++ lit ": " ++ e, focus := Focus.errorClear }, []) := by
  simp [files.listDir, h, files.error]

theorem listDir_snd (env : Env) (f g : files) (path : GoString) :
    (f.listDir env path).2 = (g.listDir env path).2 := by
  cases h : env.ReadDir path with
  | ok l => rw [listDir_ok env f path l h, listDir_ok env g path l h]
  | error e => rw [listDir_error env f path e h, listDir_error env g path e h]

theorem listDir_fst (env : Env) (f : files) (path : GoString) :
    (f.listDir env path).1.colsUI = f.colsUI ∧ (f.listDir env path).1.pathLabel = f.pathLabel ∧
      (f.listDir env path).1.favUI = f.favUI := by
  cases h : env.ReadDir path with
  | ok l => rw [listDir_ok env f path l h]; exact ⟨rfl, rfl, rfl⟩
  | error e => rw [listDir_error env f path e h]; exact ⟨rfl, rfl, rfl⟩

theorem listDir_errorLabel (env : Env) (f g : files) (path : GoString)
    (h : f.errorLabel = g.errorLabel) :
    (f.listDir env path).1.errorLabel = (g.listDir env path).1.errorLabel := by
  cases hr : env.ReadDir path with
  | ok l => rw [listDir_ok env f path l hr, listDir_ok env g path l hr]; exact h
  | error e => rw [listDir_error env f path e hr, listDir_error env g path e hr]

theorem composePath_congr (f g : files) (col : Nat) (name : GoString)
    (ha : g.favUI.active = f.favUI.active)
    (hk : g.colsUI.Kids.take col = f.colsUI.Kids.take col)
    (hf : col ≤ f.colsUI.Kids.length) (hg : col ≤ g.colsUI.Kids.length) :
    composePath g col name = composePath f col name := by
  simp only [composePath, if_pos hf, if_pos hg, ha, hk]

theorem dir_condition (a name : GoString) :
    (!HasSuffix (a ++ name) (lit "/") || name == []) = true ↔
      ¬ (name ≠ [] ∧ HasSuffix name (lit "/") = true) := by
  by_cases hn : name = []
  · subst hn
    simp
  · rw [HasSuffix_append a name hn]
    simp [hn]

/-- The column `c` after `selectName` recorded `name` in it and marked its list values. -/
theorem selectName_spec (env : Env) (f : files) (col : Nat) (name : GoString) (c : columnUI)
    (hc : f.colsUI.Kids[col]? = some c) :
    ∃ f' path, selectName env f col name = some f' ∧ composePath f col name = some path ∧
      f'.pathLabel = path ∧ f'.favUI.active = f.favUI.active ∧
      f'.errorLabel =
        (if name ≠ [] ∧ HasSuffix name (lit "/") = true then (f.listDir env path).1.errorLabel
         else f.errorLabel) ∧
      f'.colsUI.Kids = f.colsUI.Kids.take col ++
        { c with
          name := name
          list := { Values := c.list.Values.map (fun lv => { lv with Selected := lv.Text == name }) } } ::
        (if name ≠ [] ∧ HasSuffix name (lit "/") = true then
          [newColumnUI name (f.listDir env path).2] else []) := by
  have hlt : col < f.colsUI.Kids.length := by
    rw [List.getElem?_eq_some_iff] at hc
    exact hc.1
  have hp : composePath f col name = some ((f.colsUI.Kids.take col).foldl
      (fun path colK => path ++ colK.name) f.favUI.active ++ name) := by
    simp only [composePath, if_pos hlt.le]
  rw [hp]
  unfold selectName
  rw [if_pos (by omega : col + 1 ≤ f.colsUI.Kids.length)]
  simp only [List.getElem?_take_of_succ, hc, set_take_succ _ _ _ hlt]
  rw [composePath_congr f _ col name (by rfl)
    (by simp [List.take_append_of_le_length, List.length_take, hlt.le])
    hlt.le (by simp [List.length_take, hlt.le]), hp]
  dsimp only
  by_cases hd : name ≠ [] ∧ HasSuffix name (lit "/") = true
  · rw [if_neg (by rw [dir_condition]; exact not_not.mpr hd)]
    refine ⟨_, _, rfl, rfl, ?_⟩
    rw [if_pos hd, if_pos hd]
    refine ⟨?_, ?_, ?_, ?_⟩
    · exact (listDir_fst env _ _).2.1
    · show (files.listDir env _ _).1.favUI.active = _
      rw [(listDir_fst env _ _).2.2]
    · exact listDir_errorLabel env _ _ _ rfl
    · simp only [(listDir_fst env _ _).1]
      rw [listDir_snd env _ f, List.append_assoc]
      rfl
  · rw [if_pos (by rw [dir_condition]; exact hd)]
    refine ⟨_, _, rfl, rfl, ?_⟩
    rw [if_neg hd, if_neg hd]
    exact ⟨rfl, rfl, rfl, rfl⟩


/-! ## The example states are states of the program -/

theorem exampleStart_eq : Select exampleEnv exampleFav = some exampleStart := by decide

theorem exampleDocs_eq : selectName exampleEnv exampleStart 0 (lit "docs/") = some exampleDocs := by
  decide

/-! ## The chain of columns -/

theorem getElem?_of_lt (Kids : List columnUI) (col : Nat) (h : col < Kids.length) :
    ∃ c, Kids[col]? = some c :=
  ⟨Kids[col], List.getElem?_eq_getElem h⟩

theorem take_append_left (Kids : List columnUI) (col : Nat) (rest : List columnUI)
    (h : col ≤ Kids.length) : (Kids.take col ++ rest).take col = Kids.take col := by
  rw [List.take_append_of_le_length (by rw [List.length_take]; omega), List.take_take, min_self]

theorem selectName_kids (env : Env) (f : files) (col : Nat) (name : GoString) (c : columnUI)
    (hc : f.colsUI.Kids[col]? = some c) :
    ∃ f', selectName env f col name = some f' ∧
      f'.colsUI.Kids[col]? = some { c with
        name := name
        list := { Values := c.list.Values.map (fun lv => { lv with Selected := lv.Text == name }) } } ∧
      (HasSuffix name (lit "/") = true →
        f'.colsUI.Kids.length = col + 2 ∧
        ∃ path, f'.colsUI.Kids[col + 1]? = some (newColumnUI name (f.listDir env path).2)) := by
  have hcol : col < f.colsUI.Kids.length := (List.getElem?_eq_some_iff.mp hc).1
  obtain ⟨f', path, hsel, -, -, -, -, hkids⟩ := selectName_spec env f col name c hc
  have hlen : (f.colsUI.Kids.take col).length = col := by
    rw [List.length_take]; omega
  refine ⟨f', hsel, ?_, ?_⟩
  · rw [hkids, List.getElem?_append_right (by omega), hlen, Nat.sub_self,
      List.getElem?_cons_zero]
  · intro hd
    rw [if_pos ⟨HasSuffix_ne_nil name hd, hd⟩] at hkids
    refine ⟨?_, path, ?_⟩
    · rw [hkids, List.length_append, hlen]
      rfl
    · rw [hkids, List.getElem?_append_right (by omega), hlen, Nat.add_sub_cancel_left]
      rfl

/-- C4: for a column index `col` inside the chain, `selectName col name` succeeds,
leaves the columns `0..col-1` as they were and discards the columns after `col`:
column `col` (with `name` recorded and its list values marked) is followed by one
column, freshly made from the listing of the composed path, when `name` is non-empty
and ends with "/" (length `col+2`), and by nothing when `name` is empty or does not
end with "/" (length `col+1`). -/
theorem selectName_chain (env : Env) (f : files) (col : Nat) (name : GoString)
    (hcol : col < f.colsUI.Kids.length) :
    ∃ f' c, selectName env f col name = some f' ∧ f.colsUI.Kids[col]? = some c ∧
      f'.colsUI.Kids.take col = f.colsUI.Kids.take col ∧
      f'.colsUI.Kids[col]? = some { c with
        name := name
        list := { Values := c.list.Values.map (fun lv => { lv with Selected := lv.Text == name }) } } ∧
      (name ≠ [] ∧ HasSuffix name (lit "/") = true →
        f'.colsUI.Kids.length = col + 2 ∧
        ∃ path, composePath f col name = some path ∧
          f'.colsUI.Kids[col + 1]? = some (newColumnUI name (f.listDir env path).2)) ∧
      (name = [] ∨ HasSuffix name (lit "/") = false → f'.colsUI.Kids.length = col + 1) := by
  obtain ⟨c, hc⟩ := getElem?_of_lt _ _ hcol
  obtain ⟨f', path, hsel, hpath, -, -, -, hkids⟩ := selectName_spec env f col name c hc
  have hlen : (f.colsUI.Kids.take col).length = col := by
    rw [List.length_take]; omega
  refine ⟨f', c, hsel, hc, ?_, ?_, ?_, ?_⟩
  · rw [hkids]
    exact take_append_left _ _ _ hcol.le
  · rw [hkids, List.getElem?_append_right (by omega), hlen, Nat.sub_self,
      List.getElem?_cons_zero]
  · intro hd
    rw [if_pos hd] at hkids
    refine ⟨?_, path, hpath, ?_⟩
    · rw [hkids, List.length_append, hlen]
      rfl
    · rw [hkids, List.getElem?_append_right (by omega), hlen, Nat.add_sub_cancel_left]
      rfl
  · intro hn
    have hd : ¬ (name ≠ [] ∧ HasSuffix name (lit "/") = true) := by
      rintro ⟨h1, h2⟩
      rcases hn with h | h
      · exact h1 h
      · rw [h2] at h
        exact Bool.noConfusion h
    rw [if_neg hd] at hkids
    rw [hkids, List.length_append, hlen]
    rfl

theorem selectName_chain_witness :
    0 < exampleStart.colsUI.Kids.length ∧
    ∃ f' c, selectName exampleEnv exampleStart 0 (lit "docs/") = some f' ∧
      exampleStart.colsUI.Kids[0]? = some c ∧
      f'.colsUI.Kids.take 0 = exampleStart.colsUI.Kids.take 0 ∧
      f'.colsUI.Kids[0]? = some { c with
        name := lit "docs/"
        list := { Values := c.list.Values.map (fun lv => { lv with Selected := lv.Text == lit "docs/" }) } } ∧
      (lit "docs/" ≠ [] ∧ HasSuffix (lit "docs/") (lit "/") = true →
        f'.colsUI.Kids.length = 0 + 2 ∧
        ∃ path, composePath exampleStart 0 (lit "docs/") = some path ∧
          f'.colsUI.Kids[0 + 1]? =
            some (newColumnUI (lit "docs/") (exampleStart.listDir exampleEnv path).2)) ∧
      (lit "docs/" = [] ∨ HasSuffix (lit "docs/") (lit "/") = false →
        f'.colsUI.Kids.length = 0 + 1) :=
  ⟨by decide, selectName_chain exampleEnv exampleStart 0 (lit "docs/") (by decide)⟩

/-- C5, as the claim states it, fails: selecting the unreadable directory `secret/` in
column 0 does not leave a chain of `0+1` columns. -/
theorem selectName_failed_listing_counterexample :
    composePath exampleStart 0 (lit "secret/") = some (lit "/secret/") ∧
    exampleEnv.ReadDir (lit "/secret/") =
      Except.error (lit "open /secret/: permission denied") ∧
    ¬ ∃ f', selectName exampleEnv exampleStart 0 (lit "secret/") = some f' ∧
      f'.colsUI.Kids.length = 0 + 1 := by
  refine ⟨by decide, by rfl, ?_⟩
  rintro ⟨f', hsel, hlen⟩
  have h2 : (selectName exampleEnv exampleStart 0 (lit "secret/")).map
      (fun f => f.colsUI.Kids.length) = some 2 := by decide
  rw [hsel, Option.map_some', Option.some.injEq] at h2
  omega

/-- C5, amended: when `selectName col name` is called with a directory name and listing
the composed path fails with the error `e`, the call succeeds, the columns `0..col-1`
stay as they were, a column without entries is appended (the chain has `col+2`
columns), and the error label reads `readdir: e`. -/
theorem selectName_failed_listing (env : Env) (f : files) (col : Nat) (name path e : GoString)
    (hcol : col < f.colsUI.Kids.length)
    (hdir : HasSuffix name (lit "/") = true)
    (hpath : composePath f col name = some path)
    (herr : env.ReadDir path = Except.error e) :
    ∃ f', selectName env f col name = some f' ∧
      f'.colsUI.Kids.length = col + 2 ∧
      f'.colsUI.Kids.take col = f.colsUI.Kids.take col ∧
      f'.colsUI.Kids[col + 1]? = some (newColumnUI name []) ∧
      (newColumnUI name []).list.Values = [] ∧
      f'.errorLabel = lit "readdir" ++ lit ": " ++ e := by
  obtain ⟨c, hc⟩ := getElem?_of_lt _ _ hcol
  obtain ⟨f', path', hsel, hpath', -, -, herror, hkids⟩ := selectName_spec env f col name c hc
  have hd : name ≠ [] ∧ HasSuffix name (lit "/") = true := ⟨HasSuffix_ne_nil name hdir, hdir⟩
  rw [hpath, Option.some.injEq] at hpath'
  subst hpath'
  rw [if_pos hd, listDir_error env f path e herr] at herror hkids
  have hlen : (f.colsUI.Kids.take col).length = col := by
    rw [List.length_take]; omega
  refine ⟨f', hsel, ?_, ?_, ?_, rfl, herror⟩
  · rw [hkids, List.length_append, hlen]
    rfl
  · rw [hkids]
    exact take_append_left _ _ _ hcol.le
  · rw [hkids, List.getElem?_append_right (by omega), hlen, Nat.add_sub_cancel_left]
    rfl

theorem selectName_failed_listing_witness :
    0 < exampleStart.colsUI.Kids.length ∧
    HasSuffix (lit "secret/") (lit "/") = true ∧
    composePath exampleStart 0 (lit "secret/") = some (lit "/secret/") ∧
    exampleEnv.ReadDir (lit "/secret/") =
      Except.error (lit "open /secret/: permission denied") ∧
    ∃ f', selectName exampleEnv exampleStart 0 (lit "secret/") = some f' ∧
      f'.colsUI.Kids.length = 0 + 2 ∧
      f'.colsUI.Kids.take 0 = exampleStart.colsUI.Kids.take 0 ∧
      f'.colsUI.Kids[0 + 1]? = some (newColumnUI (lit "secret/") []) ∧
      (newColumnUI (lit "secret/") []).list.Values = [] ∧
      f'.errorLabel = lit "readdir" ++ lit ": " ++ lit "open /secret/: permission denied" :=
  ⟨by decide, by decide, by decide, by rfl,
    selectName_failed_listing exampleEnv exampleStart 0 (lit "secret/") (lit "/secret/")
      (lit "open /secret/: permission denied") (by decide) (by decide) (by decide) (by rfl)⟩

/-- C8: when column `i+1` exists, the path composed up to column `i` (the root followed
by the recorded names of the columns `0..i`) is a prefix of the path composed up to
column `i+1`. -/
theorem composePath_prefix_next (f : files) (i : Nat) (h : i + 1 < f.colsUI.Kids.length) :
    ∃ ci cj p q, f.colsUI.Kids[i]? = some ci ∧ f.colsUI.Kids[i + 1]? = some cj ∧
      composePath f i ci.name = some p ∧ composePath f (i + 1) cj.name = some q ∧
      p <+: q := by
  obtain ⟨ci, hi⟩ := getElem?_of_lt f.colsUI.Kids i (by omega)
  obtain ⟨cj, hj⟩ := getElem?_of_lt f.colsUI.Kids (i + 1) h
  have hp : composePath f i ci.name = some ((f.colsUI.Kids.take i).foldl
      (fun path colK => path ++ colK.name) f.favUI.active ++ ci.name) := by
    simp only [composePath, if_pos (by omega : i ≤ f.colsUI.Kids.length)]
  have hq : composePath f (i + 1) cj.name = some ((f.colsUI.Kids.take (i + 1)).foldl
      (fun path colK => path ++ colK.name) f.favUI.active ++ cj.name) := by
    simp only [composePath, if_pos (by omega : i + 1 ≤ f.colsUI.Kids.length)]
  refine ⟨ci, cj, _, _, hi, hj, hp, hq, ?_⟩
  rw [List.take_succ, hi, Option.toList_some, List.foldl_append]
  exact List.prefix_append _ _

theorem composePath_prefix_next_witness :
    0 + 1 < exampleDocs.colsUI.Kids.length ∧
    ∃ ci cj p q, exampleDocs.colsUI.Kids[0]? = some ci ∧
      exampleDocs.colsUI.Kids[0 + 1]? = some cj ∧
      composePath exampleDocs 0 ci.name = some p ∧
      composePath exampleDocs (0 + 1) cj.name = some q ∧ p <+: q :=
  ⟨by decide, composePath_prefix_next exampleDocs 0 (by decide)⟩

/-! ## The right arrow -/

theorem clearError_colsUI (f : files) : f.clearError.colsUI = f.colsUI := by
  unfold files.clearError
  split <;> rfl

theorem clearError_favUI (f : files) : f.clearError.favUI = f.favUI := by
  unfold files.clearError
  split <;> rfl

theorem clearError_pathLabel (f : files) : f.clearError.pathLabel = f.pathLabel := by
  unfold files.clearError
  split <;> rfl

/-- C10: in a column `colIndex` of the chain whose single selected list value `elem`
ends with "/", the right arrow does not index past the end of the chain: the handler
returns, `selectName colIndex elem` has made column `colIndex+1`, and the handler
selects the first of the names of that column when there is one (the column records
it and marks its list values), and leaves the chain of `selectName colIndex elem` as it
is when the new column has no names. -/
theorem keyRight_new_column (env : Env) (f : files) (colIndex index : Nat) (ui : columnUI)
    (lv : ListValue)
    (hui : f.colsUI.Kids[colIndex]? = some ui)
    (hsel : ui.list.Selected = [index])
    (hlv : ui.list.Values[index]? = some lv)
    (hdir : HasSuffix lv.Value (lit "/") = true) :
    ∃ f1 newCol f2, selectName env f.clearError colIndex lv.Value = some f1 ∧
      f1.colsUI.Kids[colIndex + 1]? = some newCol ∧
      listKeys env f colIndex Key.KeyRight = some (f2, none) ∧
      (newCol.names = [] → f2.colsUI = f1.colsUI) ∧
      (∀ first rest, newCol.names = first :: rest →
        ∃ f3, selectName env f1 (colIndex + 1) first = some f3 ∧ f2.colsUI = f3.colsUI ∧
          f3.colsUI.Kids[colIndex + 1]? = some { newCol with
            name := first
            list := { Values := newCol.list.Values.map (fun lv => { lv with Selected := lv.Text == first }) } }) := by
  have hui1 : f.clearError.colsUI.Kids[colIndex]? = some ui := by
    rw [clearError_colsUI]; exact hui
  obtain ⟨f1, hs1, -, hdirlen⟩ := selectName_kids env f.clearError colIndex lv.Value ui hui1
  obtain ⟨hlen, path, hnew⟩ := hdirlen hdir
  unfold listKeys
  simp only [hui1, hsel, hlv, hdir, if_true, hs1, hnew]
  generalize (files.listDir env f.clearError path).2 = L at hnew ⊢
  cases L with
  | nil =>
    refine ⟨f1, _, { f1 with focus := Focus.list (f1.colsUI.Kids.length - 1) }, rfl, hnew,
      ?_, ?_, ?_⟩
    · simp [newColumnUI, hlen]
    · intro _
      rfl
    · intro first rest h
      simp [newColumnUI] at h
  | cons a L =>
    obtain ⟨f3, hs3, hcol3, -⟩ := selectName_kids env f1 (colIndex + 1) a _ hnew
    have hlen3 : f3.colsUI.Kids.length ≥ 1 := by
      have := (List.getElem?_eq_some_iff.mp hcol3).1
      omega
    refine ⟨f1, _, { f3 with focus := Focus.list (f3.colsUI.Kids.length - 1) }, rfl, hnew,
      ?_, ?_, ?_⟩
    · simp [newColumnUI, hs3, hlen3]
    · intro h
      simp [newColumnUI] at h
    · intro first rest h
      simp only [newColumnUI, List.cons.injEq] at h
      obtain ⟨rfl, -⟩ := h
      exact ⟨f3, hs3, rfl, hcol3⟩

theorem keyRight_new_column_witness :
    exampleDocs.colsUI.Kids[0]? = some exampleDocsColumn ∧
    exampleDocsColumn.list.Selected = [0] ∧
    exampleDocsColumn.list.Values[0]? = some ⟨lit "docs/", lit "docs/", true⟩ ∧
    HasSuffix (ListValue.mk (lit "docs/") (lit "docs/") true).Value (lit "/") = true ∧
    ∃ f1 newCol f2,
      selectName exampleEnv exampleDocs.clearError 0
        (ListValue.mk (lit "docs/") (lit "docs/") true).Value = some f1 ∧
      f1.colsUI.Kids[0 + 1]? = some newCol ∧
      listKeys exampleEnv exampleDocs 0 Key.KeyRight = some (f2, none) ∧
      (newCol.names = [] → f2.colsUI = f1.colsUI) ∧
      (∀ first rest, newCol.names = first :: rest →
        ∃ f3, selectName exampleEnv f1 (0 + 1) first = some f3 ∧ f2.colsUI = f3.colsUI ∧
          f3.colsUI.Kids[0 + 1]? = some { newCol with
            name := first
            list := { Values := newCol.list.Values.map (fun lv => { lv with Selected := lv.Text == first }) } }) :=
  ⟨by decide, by decide, by decide, by decide,
    keyRight_new_column exampleEnv exampleDocs 0 0 exampleDocsColumn
      ⟨lit "docs/", lit "docs/", true⟩ (by decide) (by decide) (by decide) (by decide)⟩

/-! ## The committed path -/

theorem composePath_clearError (f : files) (col : Nat) (n : GoString) :
    composePath f.clearError col n = composePath f col n := by
  simp only [composePath, clearError_colsUI, clearError_favUI]

theorem composePath_trailing (f : files) (col : Nat) (n p : GoString)
    (h : composePath f col n = some p) (hn : n ≠ []) :
    HasSuffix p (lit "/") = HasSuffix n (lit "/") := by
  unfold composePath at h
  split at h
  · rw [Option.some.injEq] at h
    rw [← h]
    exact HasSuffix_append _ n hn
  · exact Option.noConfusion h

theorem selectName_lt (env : Env) (f f' : files) (col : Nat) (name : GoString)
    (h : selectName env f col name = some f') : col < f.colsUI.Kids.length := by
  unfold selectName at h
  split at h
  · omega
  · exact Option.noConfusion h

theorem enter_path (env : Env) (f f' : files) (colIndex : Nat) (p : GoString)
    (h : listKeys env f colIndex Key.newline = some (f', some p)) :
    ∃ c index lv, f.colsUI.Kids[colIndex]? = some c ∧ c.list.Selected = [index] ∧
      c.list.Values[index]? = some lv ∧ composePath f colIndex lv.Value = some p := by
  unfold listKeys at h
  dsimp only at h
  rw [clearError_colsUI] at h
  cases hc : f.colsUI.Kids[colIndex]? with
  | none => rw [hc] at h; exact Option.noConfusion h
  | some c =>
    rw [hc] at h
    dsimp only at h
    split at h
    · rename_i index hsel
      split at h
      · exact Option.noConfusion h
      · rename_i lv hlv
        split at h
        · exact Option.noConfusion h
        · rename_i path hpath
          simp only [Option.some.injEq, Prod.mk.injEq] at h
          rw [composePath_clearError, h.2] at hpath
          exact ⟨c, index, lv, rfl, hsel, hlv, hpath⟩
    · simp only [Option.some.injEq, Prod.mk.injEq] at h
      exact Option.noConfusion h.2

theorem reachable_pathLabel (env : Env) (favUI : favoritesUI) (f : files)
    (hr : Reachable env favUI f) :
    ∃ col c, f.colsUI.Kids[col]? = some c ∧ composePath f col c.name = some f.pathLabel := by
  cases hr with
  | init _ hfav hsel =>
    unfold Select at hsel
    unfold startsOnActive at hfav
    rw [hfav] at hsel
    simp only [Option.some.injEq] at hsel
    subst hsel
    refine ⟨0, newColumnUI [] _, rfl, ?_⟩
    simp only [composePath, (listDir_fst env _ _).2.1, (listDir_fst env _ _).2.2]
    simp [newColumnUI]
  | step g _ col name _ hsel =>
    have hlt := selectName_lt env g f col name hsel
    obtain ⟨c, hc⟩ := getElem?_of_lt _ _ hlt
    obtain ⟨f', path, hsel', hpath, hlabel, hactive, -, hkids⟩ := selectName_spec env g col name c hc
    rw [hsel, Option.some.injEq] at hsel'
    subst hsel'
    have hlen : (g.colsUI.Kids.take col).length = col := by
      rw [List.length_take]; omega
    refine ⟨col, { c with
      name := name
      list := { Values := c.list.Values.map (fun lv => { lv with Selected := lv.Text == name }) } },
      ?_, ?_⟩
    · rw [hkids, List.getElem?_append_right (by omega), hlen, Nat.sub_self,
        List.getElem?_cons_zero]
    · rw [hlabel, ← hpath]
      refine composePath_congr g f col name hactive ?_ hlt.le ?_
      · rw [hkids]
        exact take_append_left _ _ _ hlt.le
      · rw [hkids, List.length_append, hlen]
        omega

/-- C6, as the claim states it, fails: after the directory `docs/` is selected in the
first column, both the select button and the return key deliver `/docs/`, which ends
with "/" and is not the active root `/`. -/
theorem committed_path_counterexample :
    Reachable exampleEnv exampleFav exampleDocs ∧
    Delivers exampleEnv exampleDocs (lit "/docs/") ∧
    selectButtonClick exampleDocs = lit "/docs/" ∧
    listKeys exampleEnv exampleDocs 0 Key.newline = some (exampleDocs, some (lit "/docs/")) ∧
    HasSuffix (lit "/docs/") (lit "/") = true ∧
    lit "/docs/" ≠ exampleDocs.favUI.active :=
  ⟨Reachable.step exampleStart exampleDocs 0 (lit "docs/")
      (Reachable.init exampleStart rfl exampleStart_eq) exampleDocs_eq,
    Or.inl (by decide), by decide, by decide, by decide, by decide⟩

/-- C6, amended: in every state reachable by `selectName` calls from the state `Select`
starts with, a delivered path is composed for some column `col` of the chain and a name
`n` (the active root, the recorded names of the columns before `col`, then `n`), where
`n` is the name recorded in column `col` (select button) or the value of the single
selected list value of column `col` (return key); when `n` is not empty, the path ends
with "/" exactly when `n` ends with "/", that is, when `n` is a directory name. -/
theorem committed_path (env : Env) (favUI : favoritesUI) (f : files) (p : GoString)
    (hr : Reachable env favUI f) (hd : Delivers env f p) :
    ∃ col c n, f.colsUI.Kids[col]? = some c ∧
      (n = c.name ∨
        ∃ index lv, c.list.Selected = [index] ∧ c.list.Values[index]? = some lv ∧ n = lv.Value) ∧
      composePath f col n = some p ∧
      (n ≠ [] → HasSuffix p (lit "/") = HasSuffix n (lit "/")) := by
  rcases hd with hb | ⟨colIndex, f', he⟩
  · obtain ⟨col, c, hc, hp⟩ := reachable_pathLabel env favUI f hr
    rw [hb]
    exact ⟨col, c, c.name, hc, Or.inl rfl, hp, composePath_trailing f col c.name _ hp⟩
  · obtain ⟨c, index, lv, hc, hsel, hlv, hp⟩ := enter_path env f f' colIndex p he
    exact ⟨colIndex, c, lv.Value, hc, Or.inr ⟨index, lv, hsel, hlv, rfl⟩, hp,
      composePath_trailing f colIndex lv.Value p hp⟩

theorem committed_path_witness :
    Reachable exampleEnv exampleFav exampleDocs ∧
    Delivers exampleEnv exampleDocs (lit "/docs/") ∧
    ∃ col c n, exampleDocs.colsUI.Kids[col]? = some c ∧
      (n = c.name ∨
        ∃ index lv, c.list.Selected = [index] ∧ c.list.Values[index]? = some lv ∧ n = lv.Value) ∧
      composePath exampleDocs col n = some (lit "/docs/") ∧
      (n ≠ [] → HasSuffix (lit "/docs/") (lit "/") = HasSuffix n (lit "/")) :=
  ⟨Reachable.step exampleStart exampleDocs 0 (lit "docs/")
      (Reachable.init exampleStart rfl exampleStart_eq) exampleDocs_eq,
    Or.inl (by decide),
    committed_path exampleEnv exampleFav exampleDocs (lit "/docs/")
      (Reachable.step exampleStart exampleDocs 0 (lit "docs/")
        (Reachable.init exampleStart rfl exampleStart_eq) exampleDocs_eq)
      (Or.inl (by decide))⟩

/-! ## The filter -/

theorem changedLoop_foldl (names : List GoString) (newValue : GoString)
    (acc : List ListValue) (b : Bool) :
    names.foldl
      (fun (acc : List ListValue × Bool) name =>
        let exactMatch := acc.2 || name == newValue
        if Contains name newValue then
          (acc.1 ++ [{ Text := name, Value := name, Selected := false }], exactMatch)
        else (acc.1, exactMatch))
      (acc, b) =
    (acc ++ (names.filter (fun n => Contains n newValue)).map
        (fun n => { Text := n, Value := n, Selected := false }),
      b || names.any (fun n => n == newValue)) := by
  induction names generalizing acc b with
  | nil => simp
  | cons n rest ih =>
    rw [List.foldl_cons]
    by_cases hn : Contains n newValue = true
    · simp only [hn, if_true, ih, List.filter_cons_of_pos, List.map_cons, List.any_cons,
        List.append_assoc, List.singleton_append, Bool.or_assoc]
    · simp only [hn, if_false, ih, List.filter_cons_of_neg, List.any_cons, Bool.or_assoc,
        Bool.false_eq_true, not_false_eq_true]

theorem changedLoop_eq (names : List GoString) (newValue : GoString) :
    changedLoop names newValue =
      ((names.filter (fun n => Contains n newValue)).map
          (fun n => { Text := n, Value := n, Selected := false }),
        names.any (fun n => n == newValue)) := by
  unfold changedLoop
  rw [changedLoop_foldl]
  simp

theorem changedLoop_texts (names : List GoString) (newValue : GoString) :
    (changedLoop names newValue).1.map (fun lv => lv.Text) =
      names.filter (fun n => decide (newValue <:+: n)) := by
  rw [changedLoop_eq, List.map_map]
  have h1 : ((fun lv : ListValue => lv.Text) ∘
      fun n => ({ Text := n, Value := n, Selected := false } : ListValue)) = id := rfl
  rw [h1, List.map_id]
  apply List.filter_congr
  intro n _
  rw [Bool.eq_iff_iff, Contains_iff, decide_eq_true_iff]

theorem changedLoop_exactMatch (names : List GoString) (newValue : GoString) :
    (changedLoop names newValue).2 = decide (newValue ∈ names) := by
  rw [changedLoop_eq, Bool.eq_iff_iff, List.any_eq_true, decide_eq_true_iff]
  constructor
  · rintro ⟨n, hn, he⟩
    rw [beq_iff_eq] at he
    exact he ▸ hn
  · intro h
    exact ⟨newValue, h, beq_self_eq_true _⟩

theorem setColumn_getElem? (f : files) (colIndex : Nat) (ui c : columnUI)
    (hui : f.colsUI.Kids[colIndex]? = some ui) :
    (setColumn f colIndex c).colsUI.Kids[colIndex]? = some c := by
  have hlt := (List.getElem?_eq_some_iff.mp hui).1
  simp only [setColumn, List.getElem?_set, if_true, if_pos hlt]

theorem fieldChanged_spec (env : Env) (f : files) (colIndex : Nat) (newValue : GoString)
    (ui : columnUI) (hui : f.colsUI.Kids[colIndex]? = some ui) :
    ((changedLoop ui.names newValue).2 = false →
      fieldChanged env f colIndex newValue = some (setColumn f.clearError colIndex
        { ui with list := { Values := (changedLoop ui.names newValue).1 } })) ∧
    ((changedLoop ui.names newValue).2 = true →
      ∃ f1, selectName env (setColumn f.clearError colIndex
          { ui with list := { Values := (changedLoop ui.names newValue).1 } }) colIndex newValue
          = some f1 ∧
        fieldChanged env f colIndex newValue =
          some { f1 with focus := Focus.field (f1.colsUI.Kids.length - 1) } ∧
        f1.colsUI.Kids[colIndex]? = some
          { name := newValue, names := ui.names, field := ui.field,
            list := { Values := List.map (fun lv => { lv with Selected := lv.Text == newValue }) (changedLoop ui.names newValue).1 } }) := by
  have hui1 : f.clearError.colsUI.Kids[colIndex]? = some ui := by
    rw [clearError_colsUI]; exact hui
  constructor
  · intro h
    unfold fieldChanged
    simp only [hui1, h]
    rfl
  · intro h
    obtain ⟨f1, hs1, hk1, -⟩ := selectName_kids env _ colIndex newValue _
      (setColumn_getElem? f.clearError colIndex ui
        { ui with list := { Values := (changedLoop ui.names newValue).1 } } hui1)
    have hlen : f1.colsUI.Kids.length ≥ 1 := by
      have := (List.getElem?_eq_some_iff.mp hk1).1
      omega
    refine ⟨f1, hs1, ?_, hk1⟩
    unfold fieldChanged
    simp only [hui1, h, if_true, hs1, focusLastField, if_pos hlen]

/-- C2: for a column `colIndex` of the chain, `field.Changed` finds an exact match, and so
calls `selectName colIndex newValue` on the chain with the new list values and returns
its result (with the focus moved), when `newValue` is the name of exactly one entry of
the names of the column; it finds no exact match, and only replaces the list values,
when `newValue` is no entry of the names, whether or not it is a substring of entries. -/
theorem fieldChanged_exactMatch (env : Env) (f : files) (colIndex : Nat) (newValue : GoString)
    (hcol : colIndex < f.colsUI.Kids.length) :
    ∃ ui, f.colsUI.Kids[colIndex]? = some ui ∧
      (ui.names.count newValue = 1 →
        (changedLoop ui.names newValue).2 = true ∧
        ∃ f1 f2, selectName env (setColumn f.clearError colIndex
            { ui with list := { Values := (changedLoop ui.names newValue).1 } }) colIndex newValue
            = some f1 ∧
          focusLastField f1 = some f2 ∧ fieldChanged env f colIndex newValue = some f2) ∧
      ((∀ n ∈ ui.names, n ≠ newValue) →
        (changedLoop ui.names newValue).2 = false ∧
        fieldChanged env f colIndex newValue = some (setColumn f.clearError colIndex
          { ui with list := { Values := (changedLoop ui.names newValue).1 } })) := by
  obtain ⟨ui, hui⟩ := getElem?_of_lt _ _ hcol
  obtain ⟨hfalse, htrue⟩ := fieldChanged_spec env f colIndex newValue ui hui
  refine ⟨ui, hui, ?_, ?_⟩
  · intro hcount
    have hmem : newValue ∈ ui.names := by
      rw [← List.count_pos_iff, hcount]
      exact Nat.one_pos
    have hm : (changedLoop ui.names newValue).2 = true := by
      rw [changedLoop_exactMatch, decide_eq_true_iff]
      exact hmem
    obtain ⟨f1, hs1, hfc, hk1⟩ := htrue hm
    have hlen : f1.colsUI.Kids.length ≥ 1 := by
      have := (List.getElem?_eq_some_iff.mp hk1).1
      omega
    refine ⟨hm, f1, _, hs1, ?_, hfc⟩
    simp only [focusLastField, if_pos hlen]
  · intro hne
    have hm : (changedLoop ui.names newValue).2 = false := by
      rw [changedLoop_exactMatch, decide_eq_false_iff_not]
      intro hmem
      exact hne newValue hmem rfl
    exact ⟨hm, hfalse hm⟩

theorem fieldChanged_exactMatch_witness :
    0 < exampleStart.colsUI.Kids.length ∧
    ∃ ui, exampleStart.colsUI.Kids[0]? = some ui ∧
      (ui.names.count (lit "docs/") = 1 →
        (changedLoop ui.names (lit "docs/")).2 = true ∧
        ∃ f1 f2, selectName exampleEnv (setColumn exampleStart.clearError 0
            { ui with list := { Values := (changedLoop ui.names (lit "docs/")).1 } }) 0
            (lit "docs/") = some f1 ∧
          focusLastField f1 = some f2 ∧
          fieldChanged exampleEnv exampleStart 0 (lit "docs/") = some f2) ∧
      ((∀ n ∈ ui.names, n ≠ lit "docs/") →
        (changedLoop ui.names (lit "docs/")).2 = false ∧
        fieldChanged exampleEnv exampleStart 0 (lit "docs/") =
          some (setColumn exampleStart.clearError 0
            { ui with list := { Values := (changedLoop ui.names (lit "docs/")).1 } })) :=
  ⟨by decide, fieldChanged_exactMatch exampleEnv exampleStart 0 (lit "docs/") (by decide)⟩

/-- C3: for a column `colIndex` of the chain, `field.Changed` returns, and afterwards the
texts of the list values of the column are exactly the names of the column that contain
`newValue` as a substring of bytes, in their order; they form a sublist of the names
and are not more than the names. The names of the column stay as they were. -/
theorem fieldChanged_visible (env : Env) (f : files) (colIndex : Nat) (newValue : GoString)
    (hcol : colIndex < f.colsUI.Kids.length) :
    ∃ ui f' ui', f.colsUI.Kids[colIndex]? = some ui ∧
      fieldChanged env f colIndex newValue = some f' ∧
      f'.colsUI.Kids[colIndex]? = some ui' ∧ ui'.names = ui.names ∧
      ui'.list.Values.map (fun lv => lv.Text) =
        ui.names.filter (fun n => decide (newValue <:+: n)) ∧
      List.Sublist (ui'.list.Values.map (fun lv => lv.Text)) ui.names ∧
      ui'.list.Values.length ≤ ui.names.length := by
  obtain ⟨ui, hui⟩ := getElem?_of_lt _ _ hcol
  obtain ⟨hfalse, htrue⟩ := fieldChanged_spec env f colIndex newValue ui hui
  have hui1 : f.clearError.colsUI.Kids[colIndex]? = some ui := by
    rw [clearError_colsUI]; exact hui
  have htexts := changedLoop_texts ui.names newValue
  have hsub : List.Sublist ((changedLoop ui.names newValue).1.map (fun lv => lv.Text)) ui.names := by
    rw [htexts]
    exact List.filter_sublist _
  have hlen : (changedLoop ui.names newValue).1.length ≤ ui.names.length := by
    have := hsub.length_le
    rwa [List.length_map] at this
  cases hm : (changedLoop ui.names newValue).2 with
  | false =>
    exact ⟨ui, _, _, hui, hfalse hm, setColumn_getElem? f.clearError colIndex ui _ hui1, rfl,
      htexts, hsub, hlen⟩
  | true =>
    obtain ⟨f1, -, hfc, hk1⟩ := htrue hm
    have hmap : (List.map (fun lv : ListValue => { lv with Selected := lv.Text == newValue })
        (changedLoop ui.names newValue).1).map (fun lv => lv.Text) =
        (changedLoop ui.names newValue).1.map (fun lv => lv.Text) := by
      rw [List.map_map]
      rfl
    refine ⟨ui, _, _, hui, hfc, hk1, rfl, ?_, ?_, ?_⟩
    · exact hmap.trans htexts
    · exact hmap ▸ hsub
    · rw [List.length_map]
      exact hlen

theorem fieldChanged_visible_witness :
    0 < exampleStart.colsUI.Kids.length ∧
    ∃ ui f' ui', exampleStart.colsUI.Kids[0]? = some ui ∧
      fieldChanged exampleEnv exampleStart 0 (lit "o") = some f' ∧
      f'.colsUI.Kids[0]? = some ui' ∧ ui'.names = ui.names ∧
      ui'.list.Values.map (fun lv => lv.Text) =
        ui.names.filter (fun n => decide (lit "o" <:+: n)) ∧
      List.Sublist (ui'.list.Values.map (fun lv => lv.Text)) ui.names ∧
      ui'.list.Values.length ≤ ui.names.length :=
  ⟨by decide, fieldChanged_visible exampleEnv exampleStart 0 (lit "o") (by decide)⟩

/-! ## The completion -/

theorem commonPrefix_left (a b : GoString) : commonPrefix a b <+: a := by
  induction a generalizing b with
  | nil => cases b <;> exact List.nil_prefix
  | cons x s ih =>
    cases b with
    | nil => exact List.nil_prefix
    | cons y t =>
      unfold commonPrefix
      split
      · exact List.cons_prefix_cons.mpr ⟨rfl, ih t⟩
      · exact List.nil_prefix

theorem commonPrefix_right (a b : GoString) : commonPrefix a b <+: b := by
  induction a generalizing b with
  | nil => cases b <;> exact List.nil_prefix
  | cons x s ih =>
    cases b with
    | nil => exact List.nil_prefix
    | cons y t =>
      unfold commonPrefix
      split
      · rename_i h
        exact List.cons_prefix_cons.mpr ⟨h, ih t⟩
      · exact List.nil_prefix

theorem prefix_commonPrefix (q a b : GoString) (ha : q <+: a) (hb : q <+: b) :
    q <+: commonPrefix a b := by
  induction q generalizing a b with
  | nil => exact List.nil_prefix
  | cons z q ih =>
    cases a with
    | nil => simp at ha
    | cons x s =>
      cases b with
      | nil => simp at hb
      | cons y t =>
        rw [List.cons_prefix_cons] at ha hb
        obtain ⟨rfl, ha⟩ := ha
        obtain ⟨rfl, hb⟩ := hb
        unfold commonPrefix
        rw [if_pos rfl]
        exact List.cons_prefix_cons.mpr ⟨rfl, ih s t ha hb⟩

theorem foldl_commonPrefix (xs : List GoString) (x : GoString) :
    IsLongestCommonPrefix (xs.foldl commonPrefix x) (x :: xs) := by
  induction xs generalizing x with
  | nil =>
    refine ⟨?_, ?_⟩
    · intro y hy
      rw [List.mem_singleton] at hy
      rw [hy]
      exact List.prefix_refl _
    · intro q hq
      exact hq x (List.mem_singleton.mpr rfl)
  | cons y ys ih =>
    obtain ⟨h1, h2⟩ := ih (commonPrefix x y)
    have hcp := h1 (commonPrefix x y) (List.mem_cons_self _ _)
    refine ⟨?_, ?_⟩
    · intro z hz
      rw [List.foldl_cons]
      rcases List.mem_cons.mp hz with rfl | hz
      · exact hcp.trans (commonPrefix_left _ y)
      · rcases List.mem_cons.mp hz with rfl | hz
        · exact hcp.trans (commonPrefix_right x _)
        · exact h1 z (List.mem_cons_of_mem _ hz)
    · intro q hq
      rw [List.foldl_cons]
      apply h2
      intro z hz
      rcases List.mem_cons.mp hz with rfl | hz
      · exact prefix_commonPrefix q x y (hq x (List.mem_cons_self _ _))
          (hq y (List.mem_cons_of_mem _ (List.mem_cons_self _ _)))
      · exact hq z (List.mem_cons_of_mem _ (List.mem_cons_of_mem _ hz))

theorem longestCommonPrefix_isLongest (l : List GoString) (h : l ≠ []) :
    IsLongestCommonPrefix (longestCommonPrefix l) l := by
  cases l with
  | nil => exact absurd rfl h
  | cons x xs => exact foldl_commonPrefix xs x

theorem isLongestCommonPrefix_unique (p q : GoString) (l : List GoString)
    (hp : IsLongestCommonPrefix p l) (hq : IsLongestCommonPrefix q l) : p = q :=
  (hq.2 p hp.1).eq_of_length
    (Nat.le_antisymm (hq.2 p hp.1).length_le (hp.2 q hq.1).length_le)

theorem textAfterCtrlF_eq (env : Env) (f : files) (colIndex : Nat) (ui : columnUI)
    (hui : f.colsUI.Kids[colIndex]? = some ui) :
    textAfterCtrlF env f colIndex = some (completion ui.list.Values ui.field.Text) := by
  have hui1 : f.clearError.colsUI.Kids[colIndex]? = some ui := by
    rw [clearError_colsUI]; exact hui
  unfold textAfterCtrlF fieldKeys
  simp only [hui1]
  generalize completion ui.list.Values ui.field.Text = s
  have hg := setColumn_getElem? f.clearError colIndex ui
    { ui with field := { Text := s, Cursor1 := 0 } } hui1
  obtain ⟨hfalse, htrue⟩ := fieldChanged_spec env _ colIndex s _ hg
  cases hm : (changedLoop ui.names s).2 with
  | false =>
    rw [hfalse hm]
    have hg1 : (setColumn f.clearError colIndex
        { ui with field := { Text := s, Cursor1 := 0 } }).clearError.colsUI.Kids[colIndex]? =
        some { ui with field := { Text := s, Cursor1 := 0 } } := by
      rw [clearError_colsUI]; exact hg
    simp only [setColumn_getElem? _ colIndex _ _ hg1]
  | true =>
    obtain ⟨f1, -, hfc, hk1⟩ := htrue hm
    rw [hfc]
    simp only [hk1]

/-- C1, at a failing input: `Select` starts on a directory with the entries `docs/`,
`notes.txt` and `photo.png`; the field is empty, all three entries are shown and all
start with the text of the field; their longest common prefix is the empty string, and
ctrl-f sets the text of the field to `photo.png`, which is not their longest common
prefix. -/
theorem completion_three_names :
    Select exampleEnvNames exampleFav = some (exampleTyped exampleNames []) ∧
    (exampleTyped exampleNames []).colsUI.Kids[0]? = some (typedColumn exampleNames []) ∧
    (typedColumn exampleNames []).list.Values.map (fun lv => lv.Text) = exampleNames ∧
    exampleNames.filter (fun n => HasPrefix n []) = exampleNames ∧
    textAfterCtrlF exampleEnvNames (exampleTyped exampleNames []) 0 = some (lit "photo.png") ∧
    longestCommonPrefix exampleNames = [] ∧
    IsLongestCommonPrefix [] exampleNames ∧
    ¬ IsLongestCommonPrefix (lit "photo.png") exampleNames := by
  have hl : longestCommonPrefix exampleNames = [] := by decide
  have hnil : IsLongestCommonPrefix [] exampleNames := by
    have h := longestCommonPrefix_isLongest exampleNames (by decide)
    rwa [hl] at h
  refine ⟨by decide, by decide, by decide, by decide, by decide, hl, hnil, ?_⟩
  intro h
  have he := isLongestCommonPrefix_unique _ _ _ h hnil
  revert he
  decide

/-- C7, at a failing input: `Select` starts on a directory with the files `a`, `b` and
`c`; the empty text of the field is the longest common prefix of the shown names that
start with it, and ctrl-f does not leave it: the text of the field becomes `c`. -/
theorem completion_not_idempotent :
    Select exampleEnvABC exampleFav = some (exampleTyped exampleABC []) ∧
    (exampleTyped exampleABC []).colsUI.Kids[0]? = some (typedColumn exampleABC []) ∧
    (typedColumn exampleABC []).field.Text = [] ∧
    ((typedColumn exampleABC []).list.Values.map (fun lv => lv.Text)).filter
      (fun n => HasPrefix n []) = exampleABC ∧
    IsLongestCommonPrefix [] exampleABC ∧
    textAfterCtrlF exampleEnvABC (exampleTyped exampleABC []) 0 = some (lit "c") ∧
    lit "c" ≠ [] := by
  have hl : longestCommonPrefix exampleABC = [] := by decide
  have hnil : IsLongestCommonPrefix [] exampleABC := by
    have h := longestCommonPrefix_isLongest exampleABC (by decide)
    rwa [hl] at h
  exact ⟨by decide, by decide, by decide, by decide, hnil, by decide, by decide⟩

/-- C9, as the claim states it, fails: with the text `z` in the field no entry of
`docs/`, `notes.txt`, `photo.png` is shown, and ctrl-f does not keep the text: the field
is empty afterwards. -/
theorem completion_nothing_shown_counterexample :
    (exampleTyped exampleNames (lit "z")).colsUI.Kids[0]? =
      some (typedColumn exampleNames (lit "z")) ∧
    (typedColumn exampleNames (lit "z")).list.Values = [] ∧
    (typedColumn exampleNames (lit "z")).field.Text = lit "z" ∧
    textAfterCtrlF exampleEnvNames (exampleTyped exampleNames (lit "z")) 0 = some [] ∧
    ([] : GoString) ≠ lit "z" := by
  exact ⟨by decide, by decide, by decide, by decide, by decide⟩

/-- C9, amended: for a column `colIndex` of the chain, ctrl-f returns; when the list of
the column shows no value the text of the field is empty afterwards (so it is the text
from before only if that was empty), and when the list shows exactly one value the text
of the field is the text of that value afterwards, which is a full name of the names of
the column when the list values are those of the filter. -/
theorem completion_few_shown (env : Env) (f : files) (colIndex : Nat)
    (hcol : colIndex < f.colsUI.Kids.length) :
    ∃ ui, f.colsUI.Kids[colIndex]? = some ui ∧
      (ui.list.Values = [] → textAfterCtrlF env f colIndex = some []) ∧
      (∀ lv, ui.list.Values = [lv] →
        textAfterCtrlF env f colIndex = some lv.Text ∧
        (ui.list.Values = (changedLoop ui.names ui.field.Text).1 → lv.Text ∈ ui.names)) := by
  obtain ⟨ui, hui⟩ := getElem?_of_lt _ _ hcol
  have ht := textAfterCtrlF_eq env f colIndex ui hui
  refine ⟨ui, hui, ?_, ?_⟩
  · intro h
    rw [ht, h]
    rfl
  · intro lv h
    refine ⟨?_, ?_⟩
    · rw [ht, h]
      rfl
    · intro hv
      have hmem : lv.Text ∈ ui.list.Values.map (fun lv => lv.Text) := by
        rw [h]
        exact List.mem_singleton.mpr rfl
      rw [hv, changedLoop_texts] at hmem
      exact (List.mem_filter.mp hmem).1

theorem completion_few_shown_witness :
    0 < (exampleTyped exampleNames (lit "doc")).colsUI.Kids.length ∧
    ∃ ui, (exampleTyped exampleNames (lit "doc")).colsUI.Kids[0]? = some ui ∧
      (ui.list.Values = [] →
        textAfterCtrlF exampleEnvNames (exampleTyped exampleNames (lit "doc")) 0 = some []) ∧
      (∀ lv, ui.list.Values = [lv] →
        textAfterCtrlF exampleEnvNames (exampleTyped exampleNames (lit "doc")) 0 = some lv.Text ∧
        (ui.list.Values = (changedLoop ui.names ui.field.Text).1 → lv.Text ∈ ui.names)) :=
  ⟨by decide, completion_few_shown exampleEnvNames (exampleTyped exampleNames (lit "doc")) 0
    (by decide)⟩

end duitfiles
